import Mathlib

/-!
Verification development for the FHEVM SDK orchestration layer
(fhevm-react-template).

The repository's published package exposes `FhevmSDK` (client façade with
`init`, `encrypt`/`encryptOne`, `encryptBatch`, `userDecrypt`,
`publicDecrypt`, contract `send`/`call`) together with a type registry over
the closed tag set `bool/uint8/uint16/uint32/uint64/address`.  The core
module sources (`packages/fhevm-sdk/src/core/*`) are not part of the
checked-in sources here — only the re-exporting `index.ts`, the Next.js
example page and documentation are — so the core operations below are
modelled from the specification, while the Next.js example handler is
embedded directly from `examples/nextjs/app/page.tsx`.
-/

namespace FhevmSdk

/-- Error taxonomy of the orchestration layer (spec §7): every externally
observable operation settles with a success value or exactly one of these. -/
inductive FhevmError where
  | InvalidConfig
  | NotInitialized
  | UnsupportedType
  | ValueOutOfRange
  | SignatureRejected
  | AuthorizationExpired
  | DecryptionFailed
  | OracleTimeout
  deriving DecidableEq, Repr

/-- The closed set of supported logical type tags (spec §3, §4.1). -/
def supportedTags : List String :=
  ["bool", "uint8", "uint16", "uint32", "uint64", "address"]

/-- Serialization rule resolved for a type tag: its bit width (spec §4.1). -/
structure TypeInfo where
  bitWidth : Nat
  deriving DecidableEq, Repr

/-- Modelled from the spec: the Type Registry's `resolve(typeTag)` of
§4.1 (its implementation lives in the package's core module, absent from
the checked-in sources).  Maps each tag of the closed set to its bit
width; any other tag fails with `UnsupportedType`. -/
def resolve (typeTag : String) : Except FhevmError TypeInfo :=
  if typeTag = "bool" then .ok ⟨1⟩
  else if typeTag = "uint8" then .ok ⟨8⟩
  else if typeTag = "uint16" then .ok ⟨16⟩
  else if typeTag = "uint32" then .ok ⟨32⟩
  else if typeTag = "uint64" then .ok ⟨64⟩
  else if typeTag = "address" then .ok ⟨160⟩
  else .error .UnsupportedType

/-- Ciphertext handle plus metadata returned by the encryption path
(spec §3, `EncryptedValue`). -/
structure EncryptedValue where
  ciphertext : Int
  typeTag : String
  deriving DecidableEq, Repr

/-- The external encryption/decryption capability (spec §6):
`encrypt(rawValue, bitWidth) -> ciphertextBytes` and the inverse used by
the decryption paths.  Opaque to this layer; passed in as functions. -/
structure Capability where
  enc : Int → Nat → Int
  dec : Int → Nat → Int

/-- Stub capability performing the identity transformation, as the spec's
round-trip property instantiates it (spec §8). -/
def idCapability : Capability := ⟨fun v _ => v, fun c _ => c⟩

/-- Whether a raw value fits a type's bit width (spec §4.2 validation). -/
def fits (v : Int) (w : Nat) : Bool :=
  decide (0 ≤ v ∧ v < (2 : Int) ^ w)

/-- Modelled from the spec: `encryptOne(value, typeTag)` of §4.2 (core
module absent from the checked-in sources).  Resolves the tag, validates
the bit width (`ValueOutOfRange` otherwise), delegates to the external
capability and wraps the ciphertext with the tag. -/
def encryptOne (cap : Capability) (v : Int) (typeTag : String) :
    Except FhevmError EncryptedValue :=
  match resolve typeTag with
  | .error e => .error e
  | .ok info =>
    if fits v info.bitWidth then
      .ok ⟨cap.enc v info.bitWidth, typeTag⟩
    else
      .error .ValueOutOfRange

/-- Sequential effectful map over `Except`: stops at the first failing
item, so a failure anywhere yields no output list at all. -/
def exMap {α β : Type} (g : α → Except FhevmError β) :
    List α → Except FhevmError (List β)
  | [] => .ok []
  | a :: l =>
    match g a with
    | .error e => .error e
    | .ok b =>
      match exMap g l with
      | .error e => .error e
      | .ok bs => .ok (b :: bs)

/-- Modelled from the spec: `encryptBatch(items)` of §4.2 (core module
absent from the checked-in sources).  Applies `encryptOne` to each item in
input order; the batch fails atomically. -/
def encryptBatch (cap : Capability) (items : List (Int × String)) :
    Except FhevmError (List EncryptedValue) :=
  exMap (fun it => encryptOne cap it.1 it.2) items

/-- Modelled from the spec: the shared tail of both decryption paths
(§4.3, core module absent from the checked-in sources): the plaintext is
interpreted via the Type Registry entry matching the `EncryptedValue`'s
stored tag; a tag absent from the registry fails with `UnsupportedType`. -/
def decryptValue (cap : Capability) (ev : EncryptedValue) :
    Except FhevmError Int :=
  match resolve ev.typeTag with
  | .error e => .error e
  | .ok info => .ok (cap.dec ev.ciphertext info.bitWidth)

/-- An `exMap` success has the same length as its input. -/
theorem exMap_ok_length {α β : Type} (g : α → Except FhevmError β) :
    ∀ (l : List α) (outs : List β), exMap g l = .ok outs →
      outs.length = l.length := by
  intro l
  induction l with
  | nil =>
    intro outs h
    simp only [exMap] at h
    cases h
    rfl
  | cons a l ih =>
    intro outs h
    simp only [exMap] at h
    cases hga : g a with
    | error e => rw [hga] at h; simp at h
    | ok b =>
      rw [hga] at h
      cases hgl : exMap g l with
      | error e => rw [hgl] at h; simp at h
      | ok bs =>
        rw [hgl] at h
        simp only at h
        cases h
        simp [ih bs hgl]

/-- Every element of an `exMap` success is the successful image of the
input element at the same index. -/
theorem exMap_ok_get {α β : Type} (g : α → Except FhevmError β) :
    ∀ (l : List α) (outs : List β), exMap g l = .ok outs →
      ∀ (i : Nat) (a : α), l[i]? = some a →
        ∃ b, g a = .ok b ∧ outs[i]? = some b := by
  intro l
  induction l with
  | nil =>
    intro outs _ i a ha
    simp at ha
  | cons x l ih =>
    intro outs h i a ha
    simp only [exMap] at h
    cases hgx : g x with
    | error e => rw [hgx] at h; simp at h
    | ok b =>
      rw [hgx] at h
      cases hgl : exMap g l with
      | error e => rw [hgl] at h; simp at h
      | ok bs =>
        rw [hgl] at h
        simp only at h
        cases h
        cases i with
        | zero =>
          simp at ha
          subst ha
          exact ⟨b, hgx, by simp⟩
        | succ j =>
          simp only [List.getElem?_cons_succ] at ha ⊢
          exact ih bs hgl j a ha

/-- One completion step of the concurrent batch (spec §4.2, §5): when the
per-item capability call for index `i` settles, its wrapped result is
stored at slot `i` of the result assembly, so the output position is fixed
by the input position, not by completion time; a failing item fails the
whole batch. -/
def schedStep (cap : Capability) (items : List (Int × String))
    (f : Nat → Option EncryptedValue) (i : Nat) :
    Except FhevmError (Nat → Option EncryptedValue) :=
  match items[i]? with
  | none => .ok f
  | some a =>
    match encryptOne cap a.1 a.2 with
    | .error e => .error e
    | .ok ev => .ok (Function.update f i (some ev))

/-- Runs the completion steps of a batch in the given completion order. -/
def schedRun (cap : Capability) (items : List (Int × String)) :
    List Nat → (Nat → Option EncryptedValue) →
      Except FhevmError (Nat → Option EncryptedValue)
  | [], f => .ok f
  | i :: rest, f =>
    match schedStep cap items f i with
    | .error e => .error e
    | .ok f2 => schedRun cap items rest f2

/-- Reads `count` consecutive slots of the result assembly starting at
`start`; `none` when a slot never settled. -/
def collectFrom (f : Nat → Option EncryptedValue) :
    Nat → Nat → Option (List EncryptedValue)
  | _, 0 => some []
  | start, c + 1 =>
    match f start with
    | none => none
    | some e =>
      match collectFrom f (start + 1) c with
      | none => none
      | some rest => some (e :: rest)

/-- Modelled from the spec: `encryptBatch` under an explicit per-item
completion order (spec §4.2 "result ordering must match input ordering
regardless of completion order"; the core module is absent from the
checked-in sources).  The batch settles the items in completion order,
then assembles the outputs in input order. -/
def encryptBatchWithOrder (cap : Capability) (items : List (Int × String))
    (order : List Nat) : Except FhevmError (Option (List EncryptedValue)) :=
  match schedRun cap items order (fun _ => none) with
  | .error e => .error e
  | .ok f => .ok (collectFrom f 0 items.length)

/-- The settled value a slot must hold: the wrapped result of the item at
that input index. -/
def slotValue (cap : Capability) (items : List (Int × String)) (j : Nat) :
    Option EncryptedValue :=
  match items[j]? with
  | none => none
  | some a => (encryptOne cap a.1 a.2).toOption

/-- When every in-bounds index of the completion order validates, the
scheduled run succeeds and each visited slot holds exactly the result of
the item at its own index, while unvisited slots are untouched. -/
theorem schedRun_ok (cap : Capability) (items : List (Int × String)) :
    ∀ (order : List Nat) (f0 : Nat → Option EncryptedValue),
      (∀ i ∈ order, ∀ a, items[i]? = some a →
        ∃ ev, encryptOne cap a.1 a.2 = .ok ev) →
      ∃ g, schedRun cap items order f0 = .ok g ∧
        (∀ j, j ∈ order → (items[j]?).isSome →
          g j = slotValue cap items j) ∧
        (∀ j, (j ∉ order ∨ items[j]? = none) → g j = f0 j) := by
  intro order
  induction order with
  | nil =>
    intro f0 _
    exact ⟨f0, rfl, fun j hj => by simp at hj, fun j _ => rfl⟩
  | cons i rest ih =>
    intro f0 hall
    cases hi : items[i]? with
    | none =>
      obtain ⟨g, hrun, hp1, hp2⟩ :=
        ih f0 (fun j hj a ha => hall j (List.mem_cons_of_mem i hj) a ha)
      refine ⟨g, ?_, ?_, ?_⟩
      · simp [schedRun, schedStep, hi, hrun]
      · intro j hj hsome
        rcases List.mem_cons.mp hj with hji | hjr
        · subst hji; rw [hi] at hsome; simp at hsome
        · exact hp1 j hjr hsome
      · intro j hj
        refine hp2 j ?_
        rcases hj with hj | hj
        · exact Or.inl fun hjr => hj (List.mem_cons_of_mem i hjr)
        · exact Or.inr hj
    | some a =>
      obtain ⟨ev, hev⟩ := hall i (List.mem_cons_self i rest) a hi
      obtain ⟨g, hrun, hp1, hp2⟩ :=
        ih (Function.update f0 i (some ev))
          (fun j hj a ha => hall j (List.mem_cons_of_mem i hj) a ha)
      refine ⟨g, ?_, ?_, ?_⟩
      · simp [schedRun, schedStep, hi, hev, hrun]
      · intro j hj hsome
        rcases List.mem_cons.mp hj with hji | hjr
        · subst hji
          by_cases hjr : j ∈ rest
          · exact hp1 j hjr hsome
          · rw [hp2 j (Or.inl hjr)]
            simp [slotValue, hi, hev, Except.toOption]
        · exact hp1 j hjr hsome
      · intro j hj
        rcases hj with hj | hj
        · have hji : j ≠ i := fun h => hj (h ▸ List.mem_cons_self i rest)
          have hjr : j ∉ rest := fun h => hj (List.mem_cons_of_mem i h)
          rw [hp2 j (Or.inl hjr)]
          simp [Function.update, hji]
        · have hji : j ≠ i := by
            intro h; rw [h, hi] at hj; cases hj
          rw [hp2 j (Or.inr hj)]
          simp [Function.update, hji]

/-- Reading off the assembly reproduces an expected list that matches it
slot by slot. -/
theorem collectFrom_eq (g : Nat → Option EncryptedValue) :
    ∀ (count : Nat) (start : Nat) (outs : List EncryptedValue),
      outs.length = count →
      (∀ j, j < count → g (start + j) = outs[j]?) →
      collectFrom g start count = some outs := by
  intro count
  induction count with
  | zero =>
    intro start outs hlen _
    rw [List.length_eq_zero] at hlen
    subst hlen
    rfl
  | succ c ih =>
    intro start outs hlen hslots
    cases outs with
    | nil => simp at hlen
    | cons e rest =>
      have h0 : g start = some e := by
        have := hslots 0 (Nat.succ_pos c)
        simpa using this
      have hrest : collectFrom g (start + 1) c = some rest := by
        refine ih (start + 1) rest (by simpa using hlen) ?_
        intro j hj
        have := hslots (j + 1) (Nat.succ_lt_succ hj)
        have harith : start + (j + 1) = start + 1 + j := by omega
        rw [harith] at this
        simpa using this
      simp [collectFrom, h0, hrest]

/-- C2: for every all-valid input batch, `encryptBatch` succeeds with an
output sequence of the same length in which the entry at each index is the
encryption of the input item at that index, and the scheduled batch run
settles to exactly that sequence under every completion-order permutation
of the item indices. -/
theorem encryptBatch_orderIndependent (cap : Capability)
    (items : List (Int × String)) (order : List Nat)
    (outs : List EncryptedValue)
    (hperm : order.Perm (List.range items.length))
    (hok : encryptBatch cap items = .ok outs) :
    encryptBatchWithOrder cap items order = .ok (some outs) ∧
    outs.length = items.length ∧
    ∀ (i : Nat) (a : Int × String), items[i]? = some a →
      ∃ b, encryptOne cap a.1 a.2 = .ok b ∧ outs[i]? = some b := by
  have hok' : exMap (fun it => encryptOne cap it.1 it.2) items = .ok outs := hok
  have hlen := exMap_ok_length (fun it => encryptOne cap it.1 it.2) items outs hok'
  have hget := exMap_ok_get (fun it => encryptOne cap it.1 it.2) items outs hok'
  have hmem : ∀ j, j ∈ order ↔ j < items.length := by
    intro j
    rw [hperm.mem_iff, List.mem_range]
  obtain ⟨g, hrun, hp1, -⟩ :=
    schedRun_ok cap items order (fun _ => none)
      (fun i _ a ha => by
        obtain ⟨b, hb, -⟩ := hget i a ha
        exact ⟨b, hb⟩)
  have hslots : ∀ j, j < items.length → g j = outs[j]? := by
    intro j hj
    have ha : items[j]? = some items[j] := List.getElem?_eq_getElem hj
    obtain ⟨b, hb, hout⟩ := hget j items[j] ha
    rw [hp1 j ((hmem j).mpr hj) (by rw [ha]; rfl), hout]
    simp [slotValue, ha, hb, Except.toOption]
  have hcollect : collectFrom g 0 items.length = some outs := by
    refine collectFrom_eq g items.length 0 outs hlen ?_
    intro j hj
    simpa using hslots j hj
  refine ⟨?_, hlen, fun i a ha => hget i a ha⟩
  unfold encryptBatchWithOrder
  rw [hrun]
  simp only
  rw [hcollect]

theorem encryptBatch_orderIndependent_witness :
    encryptBatchWithOrder idCapability [((3 : Int), "uint8"), (300, "uint16")]
      [1, 0] = .ok (some [⟨3, "uint8"⟩, ⟨300, "uint16"⟩]) :=
  (encryptBatch_orderIndependent idCapability
    [((3 : Int), "uint8"), (300, "uint16")] [1, 0]
    [⟨3, "uint8"⟩, ⟨300, "uint16"⟩] (by decide) rfl).1

/-- C7: for every supported type tag and every value, `encryptOne` fails
with `ValueOutOfRange` exactly when the value does not fit the type's bit
width, and otherwise delegates the value to the external encryption
capability and wraps the result with that type tag. -/
theorem encryptOne_validates (cap : Capability) (v : Int) (t : String)
    (info : TypeInfo) (hres : resolve t = .ok info) :
    (fits v info.bitWidth = false →
      encryptOne cap v t = .error .ValueOutOfRange) ∧
    (fits v info.bitWidth = true →
      encryptOne cap v t = .ok ⟨cap.enc v info.bitWidth, t⟩) := by
  constructor
  · intro hv
    simp [encryptOne, hres, hv]
  · intro hv
    simp [encryptOne, hres, hv]

theorem encryptOne_validates_witness :
    encryptOne idCapability 300 "uint8" = .error .ValueOutOfRange ∧
    encryptOne idCapability 42 "uint8" = .ok ⟨42, "uint8"⟩ :=
  ⟨(encryptOne_validates idCapability 300 "uint8" ⟨8⟩ rfl).1 (by decide),
   (encryptOne_validates idCapability 42 "uint8" ⟨8⟩ rfl).2 (by decide)⟩

/-- C3: for every supported type tag and every in-range value, decrypting
the result of encrypting the value at that type returns exactly the value,
when the external capability is the identity transformation. -/
theorem encrypt_decrypt_roundTrip (t : String) (info : TypeInfo) (v : Int)
    (hres : resolve t = .ok info) (hv : fits v info.bitWidth = true) :
    ∃ ev, encryptOne idCapability v t = .ok ev ∧
      decryptValue idCapability ev = .ok v := by
  refine ⟨⟨v, t⟩, ?_, ?_⟩
  · simp [encryptOne, hres, hv, idCapability]
  · simp [decryptValue, hres, idCapability]

theorem encrypt_decrypt_roundTrip_witness :
    ∃ ev, encryptOne idCapability 42 "uint8" = .ok ev ∧
      decryptValue idCapability ev = .ok 42 :=
  encrypt_decrypt_roundTrip "uint8" ⟨8⟩ 42 rfl (by decide)

/-- C1: if any single item of an `encryptBatch` call fails validation with
`ValueOutOfRange`, the whole call fails with a typed error and no output
sequence — partial or otherwise — is returned to the caller. -/
theorem encryptBatch_atomic (cap : Capability) (items : List (Int × String))
    (k : Nat) (a : Int × String) (hk : items[k]? = some a)
    (hfail : encryptOne cap a.1 a.2 = .error .ValueOutOfRange) :
    (∃ e, encryptBatch cap items = .error e) ∧
    ∀ outs : List EncryptedValue, encryptBatch cap items ≠ .ok outs := by
  have hnotok : ∀ outs : List EncryptedValue,
      encryptBatch cap items ≠ .ok outs := by
    intro outs hok
    unfold encryptBatch at hok
    obtain ⟨b, hb, -⟩ :=
      exMap_ok_get (fun it => encryptOne cap it.1 it.2) items outs hok k a hk
    rw [hfail] at hb
    cases hb
  refine ⟨?_, hnotok⟩
  cases h : encryptBatch cap items with
  | error e => exact ⟨e, rfl⟩
  | ok outs => exact absurd h (hnotok outs)

theorem encryptBatch_atomic_witness :
    (∃ e, encryptBatch idCapability [((1 : Int), "uint8"), (300, "uint8")]
        = .error e) ∧
    ∀ outs : List EncryptedValue,
      encryptBatch idCapability [((1 : Int), "uint8"), (300, "uint8")]
        ≠ .ok outs :=
  encryptBatch_atomic idCapability [((1 : Int), "uint8"), (300, "uint8")]
    1 (300, "uint8") rfl rfl

/-- C6: a type tag outside the closed supported set fails `resolve` with
`UnsupportedType`, and decrypting an `EncryptedValue` whose stored tag is
such a tag always fails with `UnsupportedType` and never returns a
plaintext value. -/
theorem unsupportedTag_rejected (t : String) (cap : Capability)
    (ev : EncryptedValue) (ht : t ∉ supportedTags) (hev : ev.typeTag = t) :
    resolve t = .error .UnsupportedType ∧
    decryptValue cap ev = .error .UnsupportedType ∧
    ∀ x : Int, decryptValue cap ev ≠ .ok x := by
  simp only [supportedTags, List.mem_cons, List.not_mem_nil, or_false] at ht
  push_neg at ht
  obtain ⟨h1, h2, h3, h4, h5, h6⟩ := ht
  have hres : resolve t = .error .UnsupportedType := by
    simp [resolve, h1, h2, h3, h4, h5, h6]
  have hdec : decryptValue cap ev = .error .UnsupportedType := by
    simp [decryptValue, hev, hres]
  exact ⟨hres, hdec, by simp [hdec]⟩

theorem unsupportedTag_rejected_witness :
    resolve "uint128" = .error .UnsupportedType ∧
    decryptValue idCapability ⟨7, "uint128"⟩ = .error .UnsupportedType ∧
    ∀ x : Int, decryptValue idCapability ⟨7, "uint128"⟩ ≠ .ok x :=
  unsupportedTag_rejected "uint128" idCapability ⟨7, "uint128"⟩
    (by decide) rfl

/-- Client configuration (spec §3 `ClientConfig`): network identifier and
contract address; provider/signer handles are passed to the operations. -/
structure FhevmConfig where
  network : String
  contractAddress : String
  deriving DecidableEq, Repr

/-- Lifecycle state of the client façade (spec §3 `ClientState`). -/
inductive ClientState where
  | uninitialized
  | initializing
  | ready
  | failed
  deriving DecidableEq, Repr

/-- The stateful client façade (spec §4.4): configuration, lifecycle state,
and the number of establishment calls made to the provider so far. -/
structure Facade where
  config : FhevmConfig
  state : ClientState
  estCount : Nat
  deriving DecidableEq, Repr

/-- Modelled from the spec: `new(config)` of §4.4 (core module absent from
the checked-in sources) — a freshly constructed, uninitialized façade. -/
def newFacade (config : FhevmConfig) : Facade :=
  ⟨config, .uninitialized, 0⟩

/-- Config validation performed by `init` (spec §4.4): contract address
and network must be present. -/
def validConfig (c : FhevmConfig) : Bool :=
  decide (c.network ≠ "" ∧ c.contractAddress ≠ "")

/-- Response of the external signer (spec §6): signature bytes or a
user rejection. -/
inductive SignerResponse where
  | signed (sig : List Nat)
  | rejected
  deriving DecidableEq, Repr

/-- The external wallet signer (spec §6):
`signStructuredMessage(domain, message) -> signatureBytes | rejection`. -/
structure Signer where
  signStructuredMessage : String → String → SignerResponse

/-- The external decryption capability, both paths (spec §6). -/
structure DecryptionCapability where
  requestUserDecryption : Int → List Nat → Except FhevmError Int
  requestPublicDecryption : Int → Except FhevmError Int

/-- The external contract runtime binding (spec §6): pass-through
`send`/`call`. -/
structure ContractRuntime where
  send : String → List Int → Except FhevmError Int
  call : String → List Int → Except FhevmError Int

/-- Signer that always rejects, as the spec's signature-rejection property
instantiates it (spec §8). -/
def rejectingSigner : Signer := ⟨fun _ _ => .rejected⟩

/-- Stub decryption capability echoing the ciphertext handle (spec §8
end-to-end scenario). -/
def stubDecryption : DecryptionCapability :=
  ⟨fun c _ => .ok c, fun c => .ok c⟩

/-- Stub contract runtime accepting every call. -/
def stubRuntime : ContractRuntime :=
  ⟨fun _ _ => .ok 0, fun _ _ => .ok 0⟩

/-- Modelled from the spec: a sequential `init()` of §4.4 (core module
absent from the checked-in sources); `est` is the outcome of the
provider/signer establishment.  Validates the config, performs one
establishment, and flips the state to `ready` or `failed`. -/
def initF (sdk : Facade) (est : Except FhevmError Unit) :
    Except FhevmError Unit × Facade :=
  match sdk.state with
  | .ready => (.ok (), sdk)
  | _ =>
    if validConfig sdk.config then
      match est with
      | .ok _ =>
        (.ok (), { sdk with state := .ready, estCount := sdk.estCount + 1 })
      | .error e =>
        (.error e, { sdk with state := .failed, estCount := sdk.estCount + 1 })
    else
      (.error .InvalidConfig, sdk)

/-- Modelled from the spec: façade `encryptOne` (spec §4.4 + §4.2, core
module absent from the checked-in sources).  Requires state `ready`;
otherwise fails with `NotInitialized`, leaving the façade untouched. -/
def encryptOneF (cap : Capability) (sdk : Facade) (v : Int) (t : String) :
    Except FhevmError EncryptedValue × Facade :=
  if sdk.state = .ready then (encryptOne cap v t, sdk)
  else (.error .NotInitialized, sdk)

/-- Modelled from the spec: façade `encryptBatch` (spec §4.4 + §4.2, core
module absent from the checked-in sources). -/
def encryptBatchF (cap : Capability) (sdk : Facade)
    (items : List (Int × String)) :
    Except FhevmError (List EncryptedValue) × Facade :=
  if sdk.state = .ready then (encryptBatch cap items, sdk)
  else (.error .NotInitialized, sdk)

/-- The structured message binding contract address, user address and the
ciphertext handle (spec §4.3). -/
def structuredMessage (contractAddress userAddress : String)
    (ev : EncryptedValue) : String :=
  contractAddress ++ ":" ++ userAddress ++ ":" ++ toString ev.ciphertext

/-- Modelled from the spec: `userDecrypt(encrypted, contractAddress,
userAddress)` of §4.3/§4.4 (core module absent from the checked-in
sources).  Requires `ready`; resolves the stored tag via the registry;
requests a signature over the structured message — a rejection settles the
call with `SignatureRejected` while the façade itself is unchanged; on a
signature, submits to the decryption capability. -/
def userDecryptF (sdk : Facade) (signer : Signer)
    (dcap : DecryptionCapability) (ev : EncryptedValue)
    (contractAddress userAddress : String) :
    Except FhevmError Int × Facade :=
  if sdk.state = .ready then
    match resolve ev.typeTag with
    | .error e => (.error e, sdk)
    | .ok _ =>
      match signer.signStructuredMessage contractAddress
          (structuredMessage contractAddress userAddress ev) with
      | .rejected => (.error .SignatureRejected, sdk)
      | .signed sig => (dcap.requestUserDecryption ev.ciphertext sig, sdk)
  else (.error .NotInitialized, sdk)

/-- Modelled from the spec: `publicDecrypt(encrypted)` of §4.3/§4.4 (core
module absent from the checked-in sources). -/
def publicDecryptF (sdk : Facade) (dcap : DecryptionCapability)
    (ev : EncryptedValue) : Except FhevmError Int × Facade :=
  if sdk.state = .ready then
    match resolve ev.typeTag with
    | .error e => (.error e, sdk)
    | .ok _ => (dcap.requestPublicDecryption ev.ciphertext, sdk)
  else (.error .NotInitialized, sdk)

/-- Modelled from the spec: pass-through `send(methodName, args)` of §4.4
(core module absent from the checked-in sources). -/
def sendF (rt : ContractRuntime) (sdk : Facade) (method : String)
    (args : List Int) : Except FhevmError Int × Facade :=
  if sdk.state = .ready then (rt.send method args, sdk)
  else (.error .NotInitialized, sdk)

/-- Modelled from the spec: pass-through `call(methodName, args)` of §4.4
(core module absent from the checked-in sources). -/
def callF (rt : ContractRuntime) (sdk : Facade) (method : String)
    (args : List Int) : Except FhevmError Int × Facade :=
  if sdk.state = .ready then (rt.call method args, sdk)
  else (.error .NotInitialized, sdk)

/-- An operation outcome is a success value or exactly one typed error,
never both and never an ambiguous null (spec §7 propagation policy). -/
def typedOutcome {α : Type} (r : Except FhevmError α) : Prop :=
  (∃ x, r = .ok x ∧ ∀ e, r ≠ .error e) ∨
  (∃ e, r = .error e ∧ ∀ x, r ≠ .ok x)

theorem typedOutcome_of_except {α : Type} (r : Except FhevmError α) :
    typedOutcome r := by
  cases r with
  | ok x => exact Or.inl ⟨x, rfl, by simp⟩
  | error e => exact Or.inr ⟨e, rfl, by simp⟩

/-- C4: every externally observable operation of the client — init,
encryptOne, encryptBatch, userDecrypt, publicDecrypt, send, call — settles
with either a success value or exactly one typed error; none returns an
ambiguous null without an error indicator. -/
theorem operations_return_typedOutcome (cap : Capability)
    (dcap : DecryptionCapability) (rt : ContractRuntime) (signer : Signer)
    (sdk : Facade) (est : Except FhevmError Unit) (v : Int) (t : String)
    (items : List (Int × String)) (ev : EncryptedValue)
    (ca ua m : String) (args : List Int) :
    typedOutcome (initF sdk est).1 ∧
    typedOutcome (encryptOneF cap sdk v t).1 ∧
    typedOutcome (encryptBatchF cap sdk items).1 ∧
    typedOutcome (userDecryptF sdk signer dcap ev ca ua).1 ∧
    typedOutcome (publicDecryptF sdk dcap ev).1 ∧
    typedOutcome (sendF rt sdk m args).1 ∧
    typedOutcome (callF rt sdk m args).1 :=
  ⟨typedOutcome_of_except _, typedOutcome_of_except _,
   typedOutcome_of_except _, typedOutcome_of_except _,
   typedOutcome_of_except _, typedOutcome_of_except _,
   typedOutcome_of_except _⟩

/-- C5: on a façade whose state is not `ready`, every encrypt, decrypt and
contract-call operation fails with `NotInitialized` and returns the façade
unchanged (nothing is queued, no establishment is triggered); in
particular a freshly constructed façade rejects `encryptOne` this way. -/
theorem notReady_operations_fail (cap : Capability)
    (dcap : DecryptionCapability) (rt : ContractRuntime) (signer : Signer)
    (sdk : Facade) (cfg : FhevmConfig) (v : Int) (t : String)
    (items : List (Int × String)) (ev : EncryptedValue)
    (ca ua m : String) (args : List Int)
    (h : sdk.state ≠ .ready) :
    encryptOneF cap sdk v t = (.error .NotInitialized, sdk) ∧
    encryptBatchF cap sdk items = (.error .NotInitialized, sdk) ∧
    userDecryptF sdk signer dcap ev ca ua = (.error .NotInitialized, sdk) ∧
    publicDecryptF sdk dcap ev = (.error .NotInitialized, sdk) ∧
    sendF rt sdk m args = (.error .NotInitialized, sdk) ∧
    callF rt sdk m args = (.error .NotInitialized, sdk) ∧
    (encryptOneF cap sdk v t).2.state = sdk.state ∧
    (encryptOneF cap sdk v t).2.estCount = sdk.estCount ∧
    (newFacade cfg).state = .uninitialized ∧
    encryptOneF cap (newFacade cfg) v t
      = (.error .NotInitialized, newFacade cfg) := by
  refine ⟨?_, ?_, ?_, ?_, ?_, ?_, ?_, ?_, rfl, ?_⟩
  · simp [encryptOneF, h]
  · simp [encryptBatchF, h]
  · simp [userDecryptF, h]
  · simp [publicDecryptF, h]
  · simp [sendF, h]
  · simp [callF, h]
  · simp [encryptOneF, h]
  · simp [encryptOneF, h]
  · simp [encryptOneF, newFacade]

theorem notReady_operations_fail_witness :
    encryptOneF idCapability (newFacade ⟨"sepolia", "0x1"⟩) 42 "uint8"
      = (.error .NotInitialized, newFacade ⟨"sepolia", "0x1"⟩) :=
  (notReady_operations_fail idCapability stubDecryption stubRuntime
    rejectingSigner (newFacade ⟨"sepolia", "0x1"⟩) ⟨"sepolia", "0x1"⟩
    42 "uint8" [] ⟨0, "uint8"⟩ "0x1" "0x2" "m" [] (by decide)).1

/-- C8: on a ready façade, a signer that always rejects makes `userDecrypt`
fail with `SignatureRejected` — a distinguished error, different from the
other decryption failures — and the façade stays `ready`, unchanged. -/
theorem signatureRejected_is_callLevel (sdk : Facade) (signer : Signer)
    (dcap : DecryptionCapability) (ev : EncryptedValue) (info : TypeInfo)
    (ca ua : String)
    (hready : sdk.state = .ready)
    (hrej : ∀ d msg, signer.signStructuredMessage d msg = .rejected)
    (hres : resolve ev.typeTag = .ok info) :
    userDecryptF sdk signer dcap ev ca ua = (.error .SignatureRejected, sdk) ∧
    (userDecryptF sdk signer dcap ev ca ua).2.state = .ready ∧
    FhevmError.SignatureRejected ≠ FhevmError.DecryptionFailed ∧
    FhevmError.SignatureRejected ≠ FhevmError.AuthorizationExpired ∧
    FhevmError.SignatureRejected ≠ FhevmError.NotInitialized := by
  have h1 : userDecryptF sdk signer dcap ev ca ua
      = (.error .SignatureRejected, sdk) := by
    simp [userDecryptF, hready, hres, hrej]
  refine ⟨h1, ?_, by decide, by decide, by decide⟩
  rw [h1]
  exact hready

theorem signatureRejected_is_callLevel_witness :
    userDecryptF ⟨⟨"sepolia", "0x1"⟩, .ready, 1⟩ rejectingSigner
      stubDecryption ⟨5, "uint8"⟩ "0x1" "0x2"
      = (.error .SignatureRejected, ⟨⟨"sepolia", "0x1"⟩, .ready, 1⟩) :=
  (signatureRejected_is_callLevel ⟨⟨"sepolia", "0x1"⟩, .ready, 1⟩
    rejectingSigner stubDecryption ⟨5, "uint8"⟩ ⟨8⟩ "0x1" "0x2"
    rfl (fun _ _ => rfl) rfl).1

/-- Events of the initialization protocol on one façade instance
(spec §5): a caller entering `init()`, and the in-flight establishment
settling with success or failure. -/
inductive InitEvent where
  | begins (caller : Nat)
  | completes (ok : Bool)
  deriving DecidableEq, Repr

/-- Initialization-protocol state: the façade lifecycle state, the number
of establishment calls made to the provider, the callers awaiting the
in-flight establishment, and the outcome each caller observed. -/
structure InitTraceState where
  st : ClientState
  estCount : Nat
  waiting : List Nat
  observed : Nat → Option ClientState

/-- Modelled from the spec: the idempotent-`init` protocol of §5 (core
module absent from the checked-in sources).  The first caller performs the
establishment and flips the state to `initializing`; a caller arriving
while `initializing` joins the waiters of the same in-flight establishment
instead of triggering a duplicate one; when the establishment settles, all
waiters observe the same `ready`/`failed` outcome. -/
def stepInit (s : InitTraceState) : InitEvent → InitTraceState
  | .begins c =>
    if s.st = .ready then
      { s with observed := Function.update s.observed c (some .ready) }
    else if s.st = .initializing then
      { s with waiting := c :: s.waiting }
    else
      { s with
          st := .initializing, estCount := s.estCount + 1,
          waiting := c :: s.waiting }
  | .completes ok =>
    if s.st = .initializing then
      { s with
          st := if ok then .ready else .failed, waiting := [],
          observed := fun c =>
            if c ∈ s.waiting then
              some (if ok then ClientState.ready else .failed)
            else s.observed c }
    else s

/-- Runs a sequence of initialization events. -/
def runInit (s : InitTraceState) (events : List InitEvent) : InitTraceState :=
  events.foldl stepInit s

/-- A fresh façade instance: uninitialized, no establishment performed,
nobody waiting, nothing observed. -/
def freshInit : InitTraceState := ⟨.uninitialized, 0, [], fun _ => none⟩

/-- Callers that begin `init` while an establishment is in flight only
join the waiters: the state stays `initializing` and no further
establishment call is made. -/
theorem runInit_joins_inflight :
    ∀ (l : List Nat) (s : InitTraceState), s.st = .initializing →
      runInit s (l.map InitEvent.begins)
        = { s with waiting := l.reverse ++ s.waiting } := by
  intro l
  induction l with
  | nil =>
    intro s _
    rfl
  | cons c l ih =>
    intro s hs
    obtain ⟨st, n, w, obs⟩ := s
    simp only at hs
    subst hs
    have hstep : stepInit ⟨.initializing, n, w, obs⟩ (.begins c)
        = ⟨.initializing, n, c :: w, obs⟩ := rfl
    show runInit (stepInit ⟨.initializing, n, w, obs⟩ (.begins c))
        (l.map InitEvent.begins) = _
    rw [hstep, ih ⟨.initializing, n, c :: w, obs⟩ rfl]
    simp

/-- C9: for every nonempty set of concurrent `init()` callers on a fresh
façade instance — all of them entering before the establishment settles —
exactly one establishment call is made to the provider, and every caller
observes the same `ready` (or `failed`) outcome. -/
theorem concurrentInit_oneEstablishment (c0 : Nat) (callers : List Nat)
    (ok : Bool) :
    (runInit freshInit (((c0 :: callers).map InitEvent.begins)
        ++ [InitEvent.completes ok])).estCount = 1 ∧
    (runInit freshInit (((c0 :: callers).map InitEvent.begins)
        ++ [InitEvent.completes ok])).st
      = (if ok then ClientState.ready else .failed) ∧
    ∀ c ∈ c0 :: callers,
      (runInit freshInit (((c0 :: callers).map InitEvent.begins)
          ++ [InitEvent.completes ok])).observed c
        = some (if ok then ClientState.ready else .failed) := by
  have hsplit : runInit freshInit (((c0 :: callers).map InitEvent.begins)
      ++ [InitEvent.completes ok])
      = stepInit (runInit freshInit ((c0 :: callers).map InitEvent.begins))
          (.completes ok) := by
    unfold runInit
    rw [List.foldl_append]
    rfl
  have hfirst : stepInit freshInit (.begins c0)
      = ⟨.initializing, 1, [c0], fun _ => none⟩ := rfl
  have hmid : runInit freshInit ((c0 :: callers).map InitEvent.begins)
      = ⟨.initializing, 1, callers.reverse ++ [c0], fun _ => none⟩ := by
    show runInit (stepInit freshInit (.begins c0))
        (callers.map InitEvent.begins) = _
    rw [hfirst, runInit_joins_inflight callers _ rfl]
  rw [hsplit, hmid]
  refine ⟨rfl, rfl, ?_⟩
  intro c hc
  have hcmem : c ∈ callers.reverse ++ [c0] := by
    rcases List.mem_cons.mp hc with h | h
    · subst h; simp
    · simp [h]
  simp [stepInit, hcmem]
  intro hnc
  rcases List.mem_cons.mp hc with h | h
  · exact h
  · exact absurd h hnc

theorem concurrentInit_oneEstablishment_witness :
    (runInit freshInit [InitEvent.begins 1, InitEvent.begins 2,
        InitEvent.completes true]).estCount = 1 ∧
    (runInit freshInit [InitEvent.begins 1, InitEvent.begins 2,
        InitEvent.completes true]).observed 1 = some ClientState.ready ∧
    (runInit freshInit [InitEvent.begins 1, InitEvent.begins 2,
        InitEvent.completes true]).observed 2 = some ClientState.ready :=
  ⟨(concurrentInit_oneEstablishment 1 [2] true).1,
   (concurrentInit_oneEstablishment 1 [2] true).2.2 1 (by simp),
   (concurrentInit_oneEstablishment 1 [2] true).2.2 2 (by simp)⟩

/-- Value of a decimal digit character, `none` otherwise. -/
def digitVal (c : Char) : Option Nat :=
  if c.isDigit then some (c.toNat - 48) else none

/-- Value of a hexadecimal digit character, `none` otherwise. -/
def hexDigitVal (c : Char) : Option Nat :=
  if c.isDigit then some (c.toNat - 48)
  else if 'a' ≤ c ∧ c ≤ 'f' then some (c.toNat - 87)
  else if 'A' ≤ c ∧ c ≤ 'F' then some (c.toNat - 55)
  else none

/-- Accumulates the longest prefix of digits of the given radix. -/
def parseDigitsAux (dv : Char → Option Nat) (radix : Nat) :
    List Char → Nat → Nat
  | [], acc => acc
  | c :: cs, acc =>
    match dv c with
    | some d => parseDigitsAux dv radix cs (acc * radix + d)
    | none => acc

/-- Parses the longest digit prefix; `none` when there is no digit at all
(JS `parseInt` yields `NaN` then). -/
def jsParseIntFrom (dv : Char → Option Nat) (radix : Nat)
    (cs : List Char) : Option Nat :=
  match cs with
  | [] => none
  | c :: _ =>
    match dv c with
    | none => none
    | some _ => some (parseDigitsAux dv radix cs 0)

/-- Magnitude part of JS `parseInt` with no radix argument: a `0x`/`0X`
prefix selects hexadecimal, otherwise decimal. -/
def jsParseIntBody (cs : List Char) : Option Nat :=
  match cs with
  | '0' :: 'x' :: rest => jsParseIntFrom hexDigitVal 16 rest
  | '0' :: 'X' :: rest => jsParseIntFrom hexDigitVal 16 rest
  | _ => jsParseIntFrom digitVal 10 cs

/-- JS `parseInt(s)` as called in `examples/nextjs/app/page.tsx`: skip
leading whitespace, optional sign, longest digit prefix; `none` models the
`NaN` result on a string with no leading digits. -/
def jsParseInt (s : String) : Option Int :=
  match s.toList.dropWhile (fun c => c.isWhitespace) with
  | '-' :: rest => (jsParseIntBody rest).map (fun n => -(n : Int))
  | '+' :: rest => (jsParseIntBody rest).map (fun n => (n : Int))
  | cs => (jsParseIntBody cs).map (fun n => (n : Int))

/-- What the example page's `handleEncrypt` does with the input string:
reject it locally with a status message, or call the SDK's `encrypt`. -/
inductive ExampleAction where
  | localReject (msg : String)
  | callEncrypt (arg : Option Int) (typeTag : String)
  deriving DecidableEq, Repr

/-- `handleEncrypt` of `examples/nextjs/app/page.tsx` (lines 17–32): the
guard `if (!value)` rejects exactly the empty string (the only falsy
string), and every other input is forwarded as
`encrypt(parseInt(value), 'uint8')`; `none` as the argument models the
`NaN` that `parseInt` produces on a non-numeric string. -/
def handleEncrypt (value : String) : ExampleAction :=
  if value = "" then .localReject "Please enter a value"
  else .callEncrypt (jsParseInt value) "uint8"

/-- C10: in the Next.js example page, every non-empty input string is
forwarded to `encrypt(parseInt(s), 'uint8')` with no range or numeric
check at the example layer — only the empty string is rejected locally, so
values outside the advertised 0–255 range (e.g. `"300"`) and non-numeric
strings (`parseInt` yields `NaN`, e.g. `"abc"`) reach `encrypt`
unvalidated. -/
theorem handleEncrypt_forwards_unvalidated :
    (∀ s : String, s ≠ "" →
      handleEncrypt s = .callEncrypt (jsParseInt s) "uint8") ∧
    handleEncrypt "" = .localReject "Please enter a value" ∧
    jsParseInt "300" = some 300 ∧
    jsParseInt "abc" = none := by
  refine ⟨?_, rfl, by decide, by decide⟩
  intro s hs
  simp [handleEncrypt, hs]

theorem handleEncrypt_forwards_unvalidated_witness :
    handleEncrypt "300" = .callEncrypt (some 300) "uint8" :=
  (handleEncrypt_forwards_unvalidated.1 "300" (by decide)).trans (by decide)

end FhevmSdk
